import Mathlib

/-!
Verification of the CPPro tokenizer (`src/tokenizer.py`).

The Python module scans a source string with an ordered list of regex
rules, emitting classified tokens with 1-based line/column positions,
an `UNKNOWN` token for each unmatched character, and a final `EOF`
token.  We embed the scanner shallowly: source text is a `List Char`,
each regex of `TOKEN_PATTERNS` becomes a hand-rolled matcher returning
the matched text (Python's `re.match` is anchored at the cursor and
greedy over the simple character classes used here, so greedy = maximal
munch), and the scan loop is a fuel-indexed recursion whose fuel
`rest.length` is proved sufficient.
-/

namespace CPPro

/-- The `TokenType` enumeration from `tokenizer.py`. -/
inductive TokenType where
  | IF | ELSE | WHILE | RETURN
  | IDENTIFIER | NUMBER | STRING
  | PLUS | MINUS | MULTIPLY | DIVIDE | ASSIGN | EQUALS | NOT_EQUALS
  | LESS_THAN | GREATER_THAN
  | LPAREN | RPAREN | LBRACE | RBRACE | SEMICOLON | COMMA
  | EOF | UNKNOWN
deriving DecidableEq, Repr

/-- The `Token` named tuple: type, matched text, 1-based line and column. -/
structure Token where
  type : TokenType
  value : List Char
  line : Nat
  column : Nat
deriving DecidableEq, Repr

/-- Characters of `[ \t]` : horizontal whitespace. -/
def isWsChar (c : Char) : Bool := c = ' ' || c = '\t'

/-- Characters of `\d` : decimal digit (ASCII, as used by the inputs at issue). -/
def isDigitChar (c : Char) : Bool := '0' ≤ c && c ≤ '9'

/-- Characters of `[a-zA-Z_]` : identifier start. -/
def isIdStart (c : Char) : Bool :=
  ('a' ≤ c && c ≤ 'z') || ('A' ≤ c && c ≤ 'Z') || c = '_'

/-- Characters of `[a-zA-Z0-9_]` : identifier continuation. -/
def isIdCont (c : Char) : Bool := isIdStart c || isDigitChar c

/-- Matcher for `r'[ \t]+'`: a maximal nonempty run of blanks/tabs. -/
def matchWs (s : List Char) : Option (List Char) :=
  match s.takeWhile isWsChar with
  | [] => none
  | c :: cs => some (c :: cs)

/-- Matcher for `r'#[^\n]*'`: `#` then everything up to the newline. -/
def matchComment (s : List Char) : Option (List Char) :=
  match s with
  | c :: r => if c = '#' then some (c :: r.takeWhile (fun x => x ≠ '\n')) else none
  | [] => none

/-- Matcher for `r'\n'`: a single newline. -/
def matchNewline (s : List Char) : Option (List Char) :=
  match s with
  | c :: _ => if c = '\n' then some ['\n'] else none
  | [] => none

/-- Matcher for `r'\d+'`: a maximal nonempty digit run. -/
def matchNumber (s : List Char) : Option (List Char) :=
  match s.takeWhile isDigitChar with
  | [] => none
  | c :: cs => some (c :: cs)

/-- Matcher for `r'"[^"]*"'`: an opening quote, the characters up to the
next quote, and that closing quote; fails when no closing quote exists
before end of input. -/
def matchString (s : List Char) : Option (List Char) :=
  match s with
  | c :: r =>
    if c = '"' then
      let body := r.takeWhile (fun x => x ≠ '"')
      match r.drop body.length with
      | d :: _ => if d = '"' then some (c :: (body ++ [d])) else none
      | [] => none
    else none
  | [] => none

/-- Matcher for `r'[a-zA-Z_][a-zA-Z0-9_]*'`. -/
def matchIdent (s : List Char) : Option (List Char) :=
  match s with
  | c :: r => if isIdStart c then some (c :: r.takeWhile isIdCont) else none
  | [] => none

/-- Matcher for a literal pattern such as `r'=='` or `r'\+'`. -/
def matchLit (lit : List Char) (s : List Char) : Option (List Char) :=
  if s.take lit.length = lit then some lit else none

/-- The table `Tokenizer.TOKEN_PATTERNS`: the ordered rule list; `none` marks a
discarded fragment (whitespace, comment, newline). -/
def TOKEN_PATTERNS : List ((List Char → Option (List Char)) × Option TokenType) :=
  [ (matchWs, none),
    (matchComment, none),
    (matchNewline, none),
    (matchNumber, some .NUMBER),
    (matchString, some .STRING),
    (matchIdent, some .IDENTIFIER),
    (matchLit ['=', '='], some .EQUALS),
    (matchLit ['!', '='], some .NOT_EQUALS),
    (matchLit ['='], some .ASSIGN),
    (matchLit ['+'], some .PLUS),
    (matchLit ['-'], some .MINUS),
    (matchLit ['*'], some .MULTIPLY),
    (matchLit ['/'], some .DIVIDE),
    (matchLit ['<'], some .LESS_THAN),
    (matchLit ['>'], some .GREATER_THAN),
    (matchLit ['('], some .LPAREN),
    (matchLit [')'], some .RPAREN),
    (matchLit [Char.ofNat 123], some .LBRACE),
    (matchLit [Char.ofNat 125], some .RBRACE),
    (matchLit [';'], some .SEMICOLON),
    (matchLit [','], some .COMMA) ]

/-- The inner `for pattern, token_type in TOKEN_PATTERNS` loop: the first
rule whose pattern matches at the cursor wins (ordered choice). -/
def tryPatterns : List ((List Char → Option (List Char)) × Option TokenType) →
    List Char → Option (List Char × Option TokenType)
  | [], _ => none
  | (m, k) :: ps, s =>
    match m s with
    | some v => some (v, k)
    | none => tryPatterns ps s

/-- The lookup `Tokenizer.KEYWORDS.get(value)` from `tokenizer.py`. -/
def KEYWORDS (v : List Char) : Option TokenType :=
  if v = String.toList "if" then some .IF
  else if v = String.toList "else" then some .ELSE
  else if v = String.toList "while" then some .WHILE
  else if v = String.toList "return" then some .RETURN
  else none

/-- Scanner state: `rest` is `source_code[position:]`; `line`, `col` and
`tokens` are the mutable fields of the Python `Tokenizer` object. -/
structure Tokenizer where
  rest : List Char
  line : Nat
  col : Nat
  tokens : List Token
deriving DecidableEq, Repr

/-- The constructor `Tokenizer.__init__`: cursor at 0, line 1, column 1, no tokens. -/
def Tokenizer.init (src : List Char) : Tokenizer :=
  { rest := src, line := 1, col := 1, tokens := [] }

/-- Lines 130-131 of `tokenizer.py`: an `IDENTIFIER` match is looked up
in `KEYWORDS` and reclassified on exact text equality. -/
def reclass (tk : TokenType) (v : List Char) : TokenType :=
  if tk = TokenType.IDENTIFIER then (KEYWORDS v).getD .IDENTIFIER else tk

/-- One iteration of the `while self.position < len(self.source_code)`
loop: try the rule table; on a match handle newline / discard / emit
(reclassifying identifier text through `KEYWORDS`); otherwise emit a
one-character `UNKNOWN` token and advance by one. -/
def Tokenizer.step (t : Tokenizer) : Tokenizer :=
  match tryPatterns TOKEN_PATTERNS t.rest with
  | some (v, k) =>
    if v = ['\n'] then
      { t with rest := t.rest.drop v.length, line := t.line + 1, col := 1 }
    else
      match k with
      | some tk =>
        { t with rest := t.rest.drop v.length,
                 col := t.col + v.length,
                 tokens := t.tokens ++ [⟨reclass tk v, v, t.line, t.col⟩] }
      | none =>
        { t with rest := t.rest.drop v.length, col := t.col + v.length }
  | none =>
    match t.rest with
    | [] => t
    | c :: r =>
      { t with rest := r, col := t.col + 1,
               tokens := t.tokens ++ [⟨.UNKNOWN, [c], t.line, t.col⟩] }

/-- The scan loop, fuel-indexed; `scanLoop_consumes_all` below shows fuel
`t.rest.length` always drains the input, so `tokenize` runs the loop to
completion exactly as the Python `while` loop does. -/
def scanLoop : Nat → Tokenizer → Tokenizer
  | 0, t => t
  | fuel + 1, t =>
    match t.rest with
    | [] => t
    | _ :: _ => scanLoop fuel t.step

/-- The method `Tokenizer.tokenize`: run the scan loop over the whole input, then
append the `EOF` token with empty text at the final counters. -/
def Tokenizer.tokenize (t : Tokenizer) : Tokenizer :=
  let u := scanLoop t.rest.length t
  { u with tokens := u.tokens ++ [⟨.EOF, [], u.line, u.col⟩] }

/-- Convenience: the token list produced for a source string. -/
def tokenizeList (src : List Char) : List Token :=
  ((Tokenizer.init src).tokenize).tokens

/-- The (line, column) pair of a token. -/
def Token.pos (tok : Token) : Nat × Nat := (tok.line, tok.column)

/-- Strict lexicographic order on (line, column) pairs. -/
def pairLt (a b : Nat × Nat) : Prop := a.1 < b.1 ∨ (a.1 = b.1 ∧ a.2 < b.2)

instance (a b : Nat × Nat) : Decidable (pairLt a b) := by
  unfold pairLt; infer_instance

/-- The actual 1-based line number of the position reached after reading
`consumed` characters of the source: one more than the newlines read. -/
def lineAt (consumed : List Char) : Nat :=
  1 + (consumed.filter (fun c => c = '\n')).length

/-- The actual 1-based column of the position reached after reading
`consumed`: one more than the characters read since the last newline. -/
def colAt (consumed : List Char) : Nat :=
  1 + (consumed.reverse.takeWhile (fun c => c ≠ '\n')).length

/-- A token is placed accurately when its text occurs at some source
index whose actual line/column are the token's recorded line/column. -/
def Placed (src : List Char) (tok : Token) : Prop :=
  ∃ i, List.take tok.value.length (List.drop i src) = tok.value ∧
    tok.line = lineAt (List.take i src) ∧ tok.column = colAt (List.take i src)

/-- Position accuracy for a whole scan: every produced token with a
first character is placed accurately in the source. -/
def PosAccurate (src : List Char) : Prop :=
  ∀ tok ∈ tokenizeList src, tok.value ≠ [] → Placed src tok

/-- Holds (as `true`) when no match of the string-literal rule anywhere in `src`
contains a newline (string literals are the only rule whose matched
text can span a line break). -/
def stringMatchNlFree (src : List Char) : Bool :=
  (List.range src.length).all fun i =>
    match matchString (src.drop i) with
    | some v => ! decide ('\n' ∈ v)
    | none => true

/-- A matcher is sound when any match is a nonempty initial segment of
its input, exactly as Python's anchored `re.match` guarantees for the
patterns in the table. -/
def MatcherSound (m : List Char → Option (List Char)) : Prop :=
  ∀ s v, m s = some v → v ≠ [] ∧ List.take v.length s = v

/-! ## List helper lemmas -/

theorem takeWhile_take (p : Char → Bool) (l : List Char) :
    List.take (l.takeWhile p).length l = l.takeWhile p := by
  induction l with
  | nil => simp
  | cons c cs ih =>
    by_cases h : p c
    · simp [List.takeWhile_cons, h, ih]
    · simp [List.takeWhile_cons, h]

theorem takeWhile_append_all (p : Char → Bool) (l₁ l₂ : List Char)
    (h : ∀ a ∈ l₁, p a = true) :
    (l₁ ++ l₂).takeWhile p = l₁ ++ l₂.takeWhile p := by
  induction l₁ with
  | nil => simp
  | cons c cs ih =>
    have hc : p c = true := h c (by simp)
    simp only [List.cons_append, List.takeWhile_cons, hc, if_pos]
    rw [ih (fun a ha => h a (by simp [ha]))]

theorem takeWhile_all (p : Char → Bool) (l : List Char)
    (h : ∀ a ∈ l, p a = true) : l.takeWhile p = l := by
  have := takeWhile_append_all p l [] h
  simpa using this

theorem mem_of_mem_takeWhile {p : Char → Bool} {l : List Char} {a : Char}
    (h : a ∈ l.takeWhile p) : p a = true := by
  induction l with
  | nil => simp at h
  | cons c cs ih =>
    by_cases hc : p c
    · simp only [List.takeWhile_cons, hc, if_pos, List.mem_cons] at h
      rcases h with rfl | h
      · exact hc
      · exact ih h
    · simp [List.takeWhile_cons, hc] at h

/-! ## Matcher soundness: every rule matches a nonempty initial segment -/

theorem matchWs_sound : MatcherSound matchWs := by
  intro s v h
  unfold matchWs at h
  cases hw : s.takeWhile isWsChar with
  | nil => rw [hw] at h; exact absurd h (by simp)
  | cons c cs =>
    rw [hw] at h
    cases h
    refine ⟨by simp, ?_⟩
    have := takeWhile_take isWsChar s
    rw [hw] at this
    exact this

theorem matchComment_sound : MatcherSound matchComment := by
  intro s v h
  cases s with
  | nil => exact absurd h (by simp [matchComment])
  | cons c r =>
    by_cases hc : c = '#'
    · subst hc
      simp only [matchComment, if_pos, Option.some.injEq] at h
      subst h
      refine ⟨by simp, ?_⟩
      rw [List.length_cons, List.take_succ_cons, takeWhile_take]
    · simp [matchComment, hc] at h

theorem matchNewline_sound : MatcherSound matchNewline := by
  intro s v h
  cases s with
  | nil => exact absurd h (by simp [matchNewline])
  | cons c r =>
    by_cases hc : c = '\n'
    · simp only [matchNewline, hc, if_pos, Option.some.injEq] at h
      subst hc
      cases h
      exact ⟨by simp, by simp⟩
    · simp [matchNewline, hc] at h

theorem matchNumber_sound : MatcherSound matchNumber := by
  intro s v h
  unfold matchNumber at h
  cases hw : s.takeWhile isDigitChar with
  | nil => rw [hw] at h; exact absurd h (by simp)
  | cons c cs =>
    rw [hw] at h
    cases h
    refine ⟨by simp, ?_⟩
    have := takeWhile_take isDigitChar s
    rw [hw] at this
    exact this

theorem matchString_sound : MatcherSound matchString := by
  intro s v h
  cases s with
  | nil => exact absurd h (by simp [matchString])
  | cons c r =>
    by_cases hc : c = '"'
    · subst hc
      simp only [matchString, if_pos] at h
      set body := r.takeWhile (fun x => x ≠ '"') with hbody
      cases hd : r.drop body.length with
      | nil => rw [hd] at h; exact absurd h (by simp)
      | cons d rest =>
        rw [hd] at h
        replace h : (if d = '"' then some ('"' :: (body ++ [d])) else none) = some v := h
        by_cases hdq : d = '"'
        · rw [if_pos hdq] at h
          subst hdq
          cases h
          refine ⟨by simp, ?_⟩
          have hlen : ('"' :: (body ++ ['"'])).length = (body.length + 1) + 1 := by
            simp [Nat.add_comm]
          rw [hlen, List.take_succ_cons, List.take_add]
          have ht : List.take body.length r = body := by
            rw [hbody, takeWhile_take]
          rw [ht, hd]
          simp
        · rw [if_neg hdq] at h
          exact absurd h (by simp)
    · simp [matchString, hc] at h

theorem matchIdent_sound : MatcherSound matchIdent := by
  intro s v h
  cases s with
  | nil => exact absurd h (by simp [matchIdent])
  | cons c r =>
    by_cases hc : isIdStart c
    · simp only [matchIdent, hc, if_pos] at h
      cases h
      refine ⟨by simp, ?_⟩
      simp only [List.length_cons, List.take_succ_cons, List.cons.injEq, true_and]
      exact takeWhile_take _ r
    · simp [matchIdent, hc] at h

theorem matchLit_sound (lit : List Char) (hlit : lit ≠ []) :
    MatcherSound (matchLit lit) := by
  intro s v h
  unfold matchLit at h
  by_cases ht : s.take lit.length = lit
  · rw [if_pos ht] at h
    cases h
    exact ⟨hlit, ht⟩
  · rw [if_neg ht] at h
    exact absurd h (by simp)

/-! ## Ordered choice over the rule table -/

theorem tryPatterns_mem (ps : List ((List Char → Option (List Char)) × Option TokenType))
    (s v : List Char) (k : Option TokenType)
    (h : tryPatterns ps s = some (v, k)) :
    ∃ m, (m, k) ∈ ps ∧ m s = some v := by
  induction ps with
  | nil => simp [tryPatterns] at h
  | cons p ps ih =>
    obtain ⟨m0, k0⟩ := p
    simp only [tryPatterns] at h
    cases hm : m0 s with
    | some v0 =>
      rw [hm] at h
      simp only [Option.some.injEq, Prod.mk.injEq] at h
      obtain ⟨rfl, rfl⟩ := h
      exact ⟨m0, by simp, hm⟩
    | none =>
      rw [hm] at h
      obtain ⟨m, hmem, hms⟩ := ih h
      exact ⟨m, by simp [hmem], hms⟩

theorem tryPatterns_eq_none (ps : List ((List Char → Option (List Char)) × Option TokenType))
    (s : List Char) :
    tryPatterns ps s = none ↔ ∀ p ∈ ps, p.1 s = none := by
  induction ps with
  | nil => simp [tryPatterns]
  | cons p ps ih =>
    obtain ⟨m0, k0⟩ := p
    simp only [tryPatterns]
    cases hm : m0 s with
    | some v0 => simp [hm]
    | none => simpa [hm] using ih

theorem TOKEN_PATTERNS_sound : ∀ p ∈ TOKEN_PATTERNS, MatcherSound p.1 := by
  intro p hp
  simp only [TOKEN_PATTERNS] at hp
  fin_cases hp
  · exact matchWs_sound
  · exact matchComment_sound
  · exact matchNewline_sound
  · exact matchNumber_sound
  · exact matchString_sound
  · exact matchIdent_sound
  all_goals exact matchLit_sound _ (by simp)

/-- Any winning rule consumes a nonempty initial segment of the input. -/
theorem tryPatterns_sound (s v : List Char) (k : Option TokenType)
    (h : tryPatterns TOKEN_PATTERNS s = some (v, k)) :
    v ≠ [] ∧ List.take v.length s = v := by
  obtain ⟨m, hmem, hms⟩ := tryPatterns_mem _ _ _ _ h
  exact TOKEN_PATTERNS_sound (m, k) hmem s v hms

/-- No rule in the table carries the `EOF` kind. -/
theorem tryPatterns_kind_ne_eof (s v : List Char) (tk : TokenType)
    (h : tryPatterns TOKEN_PATTERNS s = some (v, some tk)) :
    tk ≠ TokenType.EOF := by
  obtain ⟨m, hmem, -⟩ := tryPatterns_mem _ _ _ _ h
  intro he
  subst he
  have hk : some TokenType.EOF ∈ List.map Prod.snd TOKEN_PATTERNS :=
    List.mem_map_of_mem Prod.snd hmem
  exact absurd hk (by decide)

/-- The only rule of kind `IDENTIFIER` is the identifier matcher. -/
theorem tryPatterns_ident (s v : List Char)
    (h : tryPatterns TOKEN_PATTERNS s = some (v, some TokenType.IDENTIFIER)) :
    matchIdent s = some v := by
  obtain ⟨m, hmem, hms⟩ := tryPatterns_mem _ _ _ _ h
  simp only [TOKEN_PATTERNS, List.mem_cons, List.not_mem_nil, or_false,
    Prod.mk.injEq, Option.some.injEq, reduceCtorEq, false_and, and_false, false_or,
    or_false] at hmem
  obtain ⟨rfl, -⟩ := hmem
  exact hms

/-- At a newline the third rule wins (the first two cannot match `\n`). -/
theorem tryPatterns_newline (r : List Char) :
    tryPatterns TOKEN_PATTERNS ('\n' :: r) = some (['\n'], none) := rfl

/-! ## Characterizing one scan step -/

theorem step_of_newline (t : Tokenizer) (v : List Char) (k : Option TokenType)
    (hm : tryPatterns TOKEN_PATTERNS t.rest = some (v, k)) (hv : v = ['\n']) :
    t.step = { t with rest := t.rest.drop 1, line := t.line + 1, col := 1 } := by
  subst hv
  simp only [Tokenizer.step, hm, if_pos, List.length_cons, List.length_nil]

theorem step_of_emit (t : Tokenizer) (v : List Char) (tk : TokenType)
    (hm : tryPatterns TOKEN_PATTERNS t.rest = some (v, some tk)) (hv : v ≠ ['\n']) :
    t.step = { t with rest := t.rest.drop v.length, col := t.col + v.length, tokens := t.tokens ++ [⟨reclass tk v, v, t.line, t.col⟩] } := by
  simp only [Tokenizer.step, hm, if_neg hv]

theorem step_of_skip (t : Tokenizer) (v : List Char)
    (hm : tryPatterns TOKEN_PATTERNS t.rest = some (v, none)) (hv : v ≠ ['\n']) :
    t.step = { t with rest := t.rest.drop v.length, col := t.col + v.length } := by
  simp only [Tokenizer.step, hm, if_neg hv]

theorem step_of_unknown (t : Tokenizer) (c : Char) (r : List Char)
    (hrest : t.rest = c :: r) (hm : tryPatterns TOKEN_PATTERNS t.rest = none) :
    t.step = { t with rest := r, col := t.col + 1, tokens := t.tokens ++ [⟨TokenType.UNKNOWN, [c], t.line, t.col⟩] } := by
  have hm' : tryPatterns TOKEN_PATTERNS (c :: r) = none := hrest ▸ hm
  simp only [Tokenizer.step, hrest, hm']

/-- A reclassified kind from the table is never `EOF`. -/
theorem reclass_ne_eof (s v : List Char) (tk : TokenType)
    (hm : tryPatterns TOKEN_PATTERNS s = some (v, some tk)) :
    reclass tk v ≠ TokenType.EOF := by
  unfold reclass
  by_cases hid : tk = TokenType.IDENTIFIER
  · rw [if_pos hid]
    unfold KEYWORDS
    split_ifs <;> simp
  · rw [if_neg hid]
    exact tryPatterns_kind_ne_eof s v tk hm

/-- Each loop iteration appends only non-`EOF` tokens. -/
theorem step_tokens (t : Tokenizer) :
    ∃ e, t.step.tokens = t.tokens ++ e ∧ ∀ tok ∈ e, tok.type ≠ TokenType.EOF := by
  cases hm : tryPatterns TOKEN_PATTERNS t.rest with
  | some vk =>
    obtain ⟨v, k⟩ := vk
    by_cases hv : v = ['\n']
    · rw [step_of_newline t v k hm hv]
      exact ⟨[], by simp⟩
    · cases k with
      | some tk =>
        rw [step_of_emit t v tk hm hv]
        refine ⟨[⟨reclass tk v, v, t.line, t.col⟩], by simp, ?_⟩
        intro tok htok
        simp only [List.mem_singleton] at htok
        subst htok
        exact reclass_ne_eof t.rest v tk hm
      | none =>
        rw [step_of_skip t v hm hv]
        exact ⟨[], by simp⟩
  | none =>
    cases hr : t.rest with
    | nil =>
      refine ⟨[], ?_, by simp⟩
      simp [Tokenizer.step, hr, show tryPatterns TOKEN_PATTERNS [] = none from rfl]
    | cons c r =>
      rw [step_of_unknown t c r hr hm]
      exact ⟨[⟨TokenType.UNKNOWN, [c], t.line, t.col⟩], by simp, by simp⟩

/-- Each loop iteration on a nonempty rest consumes at least one
character. -/
theorem step_rest_length (t : Tokenizer) (h : t.rest ≠ []) :
    t.step.rest.length < t.rest.length := by
  have hpos : 0 < t.rest.length := List.length_pos.mpr h
  cases hm : tryPatterns TOKEN_PATTERNS t.rest with
  | some vk =>
    obtain ⟨v, k⟩ := vk
    obtain ⟨hne, -⟩ := tryPatterns_sound _ _ _ hm
    have hv1 : 0 < v.length := List.length_pos.mpr hne
    by_cases hv : v = ['\n']
    · rw [step_of_newline t v k hm hv]
      simp only [List.length_drop]
      omega
    · cases k with
      | some tk =>
        rw [step_of_emit t v tk hm hv]
        simp only [List.length_drop]
        omega
      | none =>
        rw [step_of_skip t v hm hv]
        simp only [List.length_drop]
        omega
  | none =>
    cases hr : t.rest with
    | nil => exact absurd hr h
    | cons c r =>
      rw [step_of_unknown t c r hr hm]
      simp [hr]

/-- A scan step leaves the already-emitted tokens in place. -/
theorem step_tokens_mono (t : Tokenizer) :
    ∃ e, t.step.tokens = t.tokens ++ e := by
  obtain ⟨e, he, -⟩ := step_tokens t
  exact ⟨e, he⟩

/-! ## The scan loop -/

/-- With fuel at least `rest.length` the loop drains the whole input:
this is the termination argument of the Python `while` loop. -/
theorem scanLoop_consumes_all :
    ∀ (fuel : Nat) (t : Tokenizer), t.rest.length ≤ fuel →
      (scanLoop fuel t).rest = [] := by
  intro fuel
  induction fuel with
  | zero =>
    intro t ht
    have : t.rest = [] := List.eq_nil_of_length_eq_zero (Nat.le_zero.mp ht)
    simpa [scanLoop]
  | succ fuel ih =>
    intro t ht
    cases hr : t.rest with
    | nil => simp [scanLoop, hr]
    | cons c r =>
      have hne : t.rest ≠ [] := by simp [hr]
      have hlt := step_rest_length t hne
      simp only [scanLoop, hr]
      exact ih t.step (by omega)

/-- The loop only appends non-`EOF` tokens. -/
theorem scanLoop_tokens :
    ∀ (fuel : Nat) (t : Tokenizer),
      ∃ mid, (scanLoop fuel t).tokens = t.tokens ++ mid ∧
        ∀ tok ∈ mid, tok.type ≠ TokenType.EOF := by
  intro fuel
  induction fuel with
  | zero => exact fun t => ⟨[], by simp [scanLoop]⟩
  | succ fuel ih =>
    intro t
    cases hr : t.rest with
    | nil => exact ⟨[], by simp [scanLoop, hr]⟩
    | cons c r =>
      obtain ⟨e, he, hty⟩ := step_tokens t
      obtain ⟨mid, hmid, hmty⟩ := ih t.step
      refine ⟨e ++ mid, ?_, ?_⟩
      · simp only [scanLoop, hr, hmid, he, List.append_assoc]
      · intro tok htok
        rcases List.mem_append.mp htok with h | h
        · exact hty tok h
        · exact hmty tok h

/-- Structure of the full scan: the original tokens, the loop's non-`EOF`
tokens, then exactly one `EOF` token at the final counters. -/
theorem tokenize_tokens (t : Tokenizer) :
    ∃ mid, (Tokenizer.tokenize t).tokens =
        t.tokens ++ mid ++ [⟨TokenType.EOF, [], (Tokenizer.tokenize t).line,
          (Tokenizer.tokenize t).col⟩] ∧
      ∀ tok ∈ mid, tok.type ≠ TokenType.EOF := by
  obtain ⟨mid, hmid, hty⟩ := scanLoop_tokens t.rest.length t
  exact ⟨mid, by simp [Tokenizer.tokenize, hmid], hty⟩

/-- The final state of a scan has empty rest. -/
theorem tokenize_rest (t : Tokenizer) : (Tokenizer.tokenize t).rest = [] := by
  simp only [Tokenizer.tokenize]
  exact scanLoop_consumes_all t.rest.length t le_rfl

/-! ## Which matched texts can contain a newline -/

theorem matchWs_chars {s v : List Char} (h : matchWs s = some v) :
    ∀ c ∈ v, isWsChar c = true := by
  unfold matchWs at h
  cases hw : s.takeWhile isWsChar with
  | nil => rw [hw] at h; exact absurd h (by simp)
  | cons c cs =>
    rw [hw] at h
    cases h
    intro a ha
    exact mem_of_mem_takeWhile (l := s) (hw ▸ ha)

theorem matchNumber_chars {s v : List Char} (h : matchNumber s = some v) :
    ∀ c ∈ v, isDigitChar c = true := by
  unfold matchNumber at h
  cases hw : s.takeWhile isDigitChar with
  | nil => rw [hw] at h; exact absurd h (by simp)
  | cons c cs =>
    rw [hw] at h
    cases h
    intro a ha
    exact mem_of_mem_takeWhile (l := s) (hw ▸ ha)

theorem matchComment_no_nl {s v : List Char} (h : matchComment s = some v) :
    ¬ '\n' ∈ v := by
  cases s with
  | nil => exact absurd h (by simp [matchComment])
  | cons c r =>
    by_cases hc : c = '#'
    · subst hc
      simp only [matchComment, if_pos, Option.some.injEq] at h
      subst h
      intro hmem
      rcases List.mem_cons.mp hmem with h | h
      · exact absurd h (by decide)
      · have := mem_of_mem_takeWhile (l := r) h
        simp at this
    · simp [matchComment, hc] at h

theorem matchIdent_no_nl {s v : List Char} (h : matchIdent s = some v) :
    ¬ '\n' ∈ v := by
  cases s with
  | nil => exact absurd h (by simp [matchIdent])
  | cons c r =>
    by_cases hc : isIdStart c
    · simp only [matchIdent, hc, if_pos, Option.some.injEq] at h
      subst h
      intro hmem
      rcases List.mem_cons.mp hmem with h | h
      · subst h
        exact absurd hc (by decide)
      · have := mem_of_mem_takeWhile (l := r) h
        exact absurd this (by decide)
    · simp [matchIdent, hc] at h

theorem matchNewline_eq {s v : List Char} (h : matchNewline s = some v) :
    v = ['\n'] := by
  cases s with
  | nil => exact absurd h (by simp [matchNewline])
  | cons c r =>
    by_cases hc : c = '\n'
    · simp only [matchNewline, hc, if_pos, Option.some.injEq] at h
      exact h.symm
    · simp [matchNewline, hc] at h

theorem matchLit_eq {lit s v : List Char} (h : matchLit lit s = some v) :
    v = lit := by
  unfold matchLit at h
  by_cases ht : s.take lit.length = lit
  · rw [if_pos ht] at h
    cases h
    rfl
  · rw [if_neg ht] at h
    exact absurd h (by simp)

/-- Except for the string rule, any winning match is either the newline
itself or contains no newline at all. -/
theorem tryPatterns_nl_cases (s v : List Char) (k : Option TokenType)
    (h : tryPatterns TOKEN_PATTERNS s = some (v, k)) :
    v = ['\n'] ∨ ¬ '\n' ∈ v ∨ matchString s = some v := by
  obtain ⟨m, hmem, hms⟩ := tryPatterns_mem _ _ _ _ h
  simp only [TOKEN_PATTERNS] at hmem
  fin_cases hmem
  · refine Or.inr (Or.inl fun hmem => ?_)
    exact absurd (matchWs_chars hms '\n' hmem) (by decide)
  · exact Or.inr (Or.inl (matchComment_no_nl hms))
  · exact Or.inl (matchNewline_eq hms)
  · refine Or.inr (Or.inl fun hmem => ?_)
    exact absurd (matchNumber_chars hms '\n' hmem) (by decide)
  · exact Or.inr (Or.inr hms)
  · exact Or.inr (Or.inl (matchIdent_no_nl hms))
  all_goals (refine Or.inr (Or.inl ?_); rw [matchLit_eq hms]; decide)

/-- Unpacking `stringMatchNlFree`. -/
theorem stringMatchNlFree_spec (src : List Char) (H : stringMatchNlFree src = true)
    (i : Nat) (v : List Char) (h : matchString (List.drop i src) = some v) :
    ¬ '\n' ∈ v := by
  by_cases hi : i < src.length
  · have hall := (List.all_eq_true.mp H) i (List.mem_range.mpr hi)
    rw [h] at hall
    simpa using hall
  · have hdrop : List.drop i src = [] := List.drop_eq_nil_of_le (by omega)
    rw [hdrop] at h
    exact absurd h (by simp [matchString])

/-! ## Line and column bookkeeping -/

theorem lineAt_append_nl (consumed : List Char) :
    lineAt (consumed ++ ['\n']) = lineAt consumed + 1 := by
  simp only [lineAt, List.filter_append, List.length_append]
  have h1 : (List.filter (fun c => decide (c = '\n')) ['\n']).length = 1 := by decide
  rw [h1]
  omega

theorem colAt_append_nl (consumed : List Char) :
    colAt (consumed ++ ['\n']) = 1 := by
  simp [colAt, List.reverse_append, List.takeWhile_cons]

theorem lineAt_append_no_nl (consumed v : List Char) (hv : ¬ '\n' ∈ v) :
    lineAt (consumed ++ v) = lineAt consumed := by
  simp only [lineAt, List.filter_append]
  have hnil : v.filter (fun c => c = '\n') = [] := by
    rw [List.filter_eq_nil]
    intro a ha
    simp only [decide_eq_true_eq]
    intro h
    subst h
    exact hv ha
  rw [hnil]
  simp

theorem colAt_append_no_nl (consumed v : List Char) (hv : ¬ '\n' ∈ v) :
    colAt (consumed ++ v) = colAt consumed + v.length := by
  simp only [colAt, List.reverse_append]
  rw [takeWhile_append_all _ _ _ ?hall]
  case hall =>
    intro a ha
    rw [List.mem_reverse] at ha
    simp only [ne_eq, decide_eq_true_eq]
    intro h
    subst h
    exact hv ha
  simp only [List.length_append, List.length_reverse]
  omega

/-! ## The scan preserves accurate positions away from multi-line strings -/

theorem scanLoop_placed (src : List Char) (H : stringMatchNlFree src = true) :
    ∀ (fuel : Nat) (t : Tokenizer) (consumed : List Char),
      consumed ++ t.rest = src →
      t.line = lineAt consumed → t.col = colAt consumed →
      (∀ tok ∈ t.tokens, Placed src tok) →
      ∀ tok ∈ (scanLoop fuel t).tokens, Placed src tok := by
  intro fuel
  induction fuel with
  | zero =>
    intro t consumed hc hl hcol htoks
    simpa [scanLoop] using htoks
  | succ fuel ih =>
    intro t consumed hc hl hcol htoks
    cases hr : t.rest with
    | nil => simpa [scanLoop, hr] using htoks
    | cons c r =>
      simp only [scanLoop, hr]
      have htlen : List.take consumed.length src = consumed := by
        rw [← hc]; exact List.take_left _ _
      have hdlen : List.drop consumed.length src = t.rest := by
        rw [← hc]; exact List.drop_left _ _
      cases hm : tryPatterns TOKEN_PATTERNS t.rest with
      | some vk =>
        obtain ⟨v, k⟩ := vk
        obtain ⟨hne, htake⟩ := tryPatterns_sound _ _ _ hm
        have hrest_split : t.rest = v ++ t.rest.drop v.length := by
          conv_lhs => rw [← List.take_append_drop v.length t.rest]
          rw [htake]
        have hnlc : v = ['\n'] ∨ ¬ '\n' ∈ v := by
          rcases tryPatterns_nl_cases _ _ _ hm with h | h | h
          · exact Or.inl h
          · exact Or.inr h
          · exact Or.inr (stringMatchNlFree_spec src H consumed.length v
              (by rw [hdlen]; exact h))
        rcases hnlc with hv | hnl
        · -- newline branch
          have hstep := step_of_newline t v k hm hv
          subst hv
          have hsplit1 : ['\n'] ++ t.rest.drop 1 = t.rest := hrest_split.symm
          apply ih t.step (consumed ++ ['\n'])
          · rw [hstep]
            show consumed ++ ['\n'] ++ t.rest.drop 1 = src
            rw [List.append_assoc, hsplit1, hc]
          · rw [hstep]
            show t.line + 1 = lineAt (consumed ++ ['\n'])
            rw [lineAt_append_nl, hl]
          · rw [hstep]
            show 1 = colAt (consumed ++ ['\n'])
            rw [colAt_append_nl]
          · rw [hstep]
            exact htoks
        · -- no newline in the matched text
          have hvn : v ≠ ['\n'] := by
            intro h
            subst h
            simp at hnl
          have hplacednew : Placed src ⟨reclass (k.getD TokenType.UNKNOWN) v, v, t.line, t.col⟩ := by
            refine ⟨consumed.length, ?_, ?_, ?_⟩
            · rw [hdlen]
              exact htake
            · rw [htlen]; exact hl
            · rw [htlen]; exact hcol
          have happlied : ∀ toks2 : List Token, (∀ tok ∈ toks2, Placed src tok) →
              ∀ tok ∈ (scanLoop fuel { t with rest := t.rest.drop v.length, col := t.col + v.length, tokens := toks2 }).tokens, Placed src tok := by
            intro toks2 htoks2
            apply ih _ (consumed ++ v)
            · show consumed ++ v ++ t.rest.drop v.length = src
              rw [List.append_assoc, ← hrest_split, hc]
            · show t.line = lineAt (consumed ++ v)
              rw [lineAt_append_no_nl _ _ hnl, hl]
            · show t.col + v.length = colAt (consumed ++ v)
              rw [colAt_append_no_nl _ _ hnl, hcol]
            · exact htoks2
          cases k with
          | some tk =>
            rw [step_of_emit t v tk hm hvn]
            apply happlied
            intro tok htok
            rcases List.mem_append.mp htok with h | h
            · exact htoks tok h
            · simp only [List.mem_singleton] at h
              subst h
              exact hplacednew
          | none =>
            rw [step_of_skip t v hm hvn]
            exact happlied t.tokens htoks
      | none =>
        -- unknown character: it cannot be a newline, which always matches
        have hcnl : c ≠ '\n' := by
          intro h
          subst h
          rw [hr, tryPatterns_newline] at hm
          exact absurd hm (by simp)
        rw [step_of_unknown t c r hr hm]
        apply ih _ (consumed ++ [c])
        · show consumed ++ [c] ++ r = src
          rw [List.append_assoc, List.singleton_append, ← hr, hc]
        · show t.line = lineAt (consumed ++ [c])
          rw [lineAt_append_no_nl _ _ (by simpa using fun h => hcnl h.symm), hl]
        · show t.col + 1 = colAt (consumed ++ [c])
          rw [colAt_append_no_nl _ _ (by simpa using fun h => hcnl h.symm), hcol]
          rfl
        · intro tok htok
          rcases List.mem_append.mp htok with h | h
          · exact htoks tok h
          · simp only [List.mem_singleton] at h
            subst h
            refine ⟨consumed.length, ?_, ?_, ?_⟩
            · rw [hdlen, hr]
              rfl
            · rw [htlen]; exact hl
            · rw [htlen]; exact hcol

/-! ## Claim theorems -/

/-- C1: on every finite input `tokenize` terminates (it is a total
function of the input) and returns a non-empty token sequence that ends
with exactly one `EOF` token, whose line/column equal the scanner's
final line/column counters; there is no failure value. -/
theorem C1_total_single_sentinel (src : List Char) :
    tokenizeList src ≠ [] ∧
    (tokenizeList src).getLast? =
      some ⟨TokenType.EOF, [], ((Tokenizer.init src).tokenize).line,
        ((Tokenizer.init src).tokenize).col⟩ ∧
    ((tokenizeList src).filter (fun tok => tok.type = TokenType.EOF)).length = 1 := by
  obtain ⟨mid, hmid, hty⟩ := tokenize_tokens (Tokenizer.init src)
  have hinit : (Tokenizer.init src).tokens = [] := rfl
  rw [hinit, List.nil_append] at hmid
  refine ⟨?_, ?_, ?_⟩
  · rw [tokenizeList, hmid]; simp
  · rw [tokenizeList, hmid]; exact List.getLast?_concat _
  · rw [tokenizeList, hmid, List.filter_append]
    have hmidnil : mid.filter (fun tok => tok.type = TokenType.EOF) = [] := by
      rw [List.filter_eq_nil]
      intro tok htok
      simpa using hty tok htok
    rw [hmidnil]
    simp

/-- C2: ordered choice puts the two-character operators before `'='`,
so `"=="` scans as a single `EQUALS` token (not two `ASSIGN`s) and
`"!="` as a single `NOT_EQUALS` (not `UNKNOWN` then `ASSIGN`); here the
full output sequences are computed. -/
theorem C2_two_char_operator_precedence :
    tokenizeList (String.toList "==") =
      [⟨TokenType.EQUALS, String.toList "==", 1, 1⟩, ⟨TokenType.EOF, [], 1, 3⟩] ∧
    tokenizeList (String.toList "!=") =
      [⟨TokenType.NOT_EQUALS, String.toList "!=", 1, 1⟩, ⟨TokenType.EOF, [], 1, 3⟩] := by
  exact ⟨rfl, rfl⟩

/-- C4: when the identifier rule wins, the emitted token's kind is the
matching keyword kind exactly when the matched text equals one of
`if`/`else`/`while`/`return`, and `IDENTIFIER` otherwise; the token
keeps the matched text and the pre-match line/column in every case. -/
theorem C4_keyword_reclassification (t : Tokenizer) (v : List Char)
    (hm : tryPatterns TOKEN_PATTERNS t.rest = some (v, some TokenType.IDENTIFIER)) :
    ∃ tok, t.step.tokens = t.tokens ++ [tok] ∧ tok.value = v ∧
      tok.line = t.line ∧ tok.column = t.col ∧
      tok.type = (if v = String.toList "if" then TokenType.IF
        else if v = String.toList "else" then TokenType.ELSE
        else if v = String.toList "while" then TokenType.WHILE
        else if v = String.toList "return" then TokenType.RETURN
        else TokenType.IDENTIFIER) := by
  have hid := tryPatterns_ident _ _ hm
  have hv : v ≠ ['\n'] := by
    intro hv
    subst hv
    cases hr : t.rest with
    | nil => rw [hr] at hid; simp [matchIdent] at hid
    | cons c r =>
      rw [hr] at hid
      by_cases hc : isIdStart c
      · simp only [matchIdent, hc, if_pos, Option.some.injEq, List.cons.injEq] at hid
        obtain ⟨rfl, -⟩ := hid
        exact absurd hc (by decide)
      · simp [matchIdent, hc] at hid
  rw [step_of_emit t v _ hm hv]
  refine ⟨_, rfl, rfl, rfl, rfl, ?_⟩
  show reclass TokenType.IDENTIFIER v = _
  unfold reclass KEYWORDS
  rw [if_pos rfl]
  split_ifs <;> rfl

/-- C4 witness: the identifier rule matching `"while"` at the start of
that source emits a `WHILE` keyword token at line 1, column 1. -/
theorem C4_keyword_reclassification_witness :
    tryPatterns TOKEN_PATTERNS (Tokenizer.init (String.toList "while")).rest =
      some (String.toList "while", some TokenType.IDENTIFIER) ∧
    ∃ tok, (Tokenizer.init (String.toList "while")).step.tokens =
        (Tokenizer.init (String.toList "while")).tokens ++ [tok] ∧
      tok.value = String.toList "while" ∧
      tok.line = (Tokenizer.init (String.toList "while")).line ∧
      tok.column = (Tokenizer.init (String.toList "while")).col ∧
      tok.type = (if String.toList "while" = String.toList "if" then TokenType.IF
        else if String.toList "while" = String.toList "else" then TokenType.ELSE
        else if String.toList "while" = String.toList "while" then TokenType.WHILE
        else if String.toList "while" = String.toList "return" then TokenType.RETURN
        else TokenType.IDENTIFIER) :=
  ⟨by decide, C4_keyword_reclassification (Tokenizer.init (String.toList "while"))
    (String.toList "while") (by decide)⟩

/-- C5: when no rule matches at the cursor, the step emits one `UNKNOWN`
token holding exactly the single character at the cursor with the
current line/column, and advances cursor and column by exactly one, so
the scan makes forward progress. -/
theorem C5_unknown_single_char (t : Tokenizer) (c : Char) (r : List Char)
    (hrest : t.rest = c :: r) (hm : tryPatterns TOKEN_PATTERNS t.rest = none) :
    t.step = { t with rest := r, col := t.col + 1, tokens := t.tokens ++ [⟨TokenType.UNKNOWN, [c], t.line, t.col⟩] } ∧
    t.step.rest.length < t.rest.length := by
  refine ⟨step_of_unknown t c r hrest hm, ?_⟩
  exact step_rest_length t (by simp [hrest])

/-- C5 witness: at `"@x"` no rule matches `'@'`; the step emits
`UNKNOWN "@"` and moves to column 2 with rest `"x"`. -/
theorem C5_unknown_single_char_witness :
    (Tokenizer.init (String.toList "@x")).rest = '@' :: String.toList "x" ∧
    tryPatterns TOKEN_PATTERNS (Tokenizer.init (String.toList "@x")).rest = none ∧
    ((Tokenizer.init (String.toList "@x")).step =
      { Tokenizer.init (String.toList "@x") with rest := String.toList "x", col := 1 + 1, tokens := [] ++ [⟨TokenType.UNKNOWN, ['@'], 1, 1⟩] } ∧
    (Tokenizer.init (String.toList "@x")).step.rest.length <
      (Tokenizer.init (String.toList "@x")).rest.length) :=
  ⟨by decide, by decide,
    C5_unknown_single_char (Tokenizer.init (String.toList "@x")) '@'
      (String.toList "x") (by decide) (by decide)⟩

/-- C8: every winning rule consumes a nonempty match, every loop
iteration on remaining input shortens it, and running the loop with
fuel equal to the input length always reaches end of input — the
termination argument for `tokenize`. -/
theorem C8_every_iteration_consumes (src0 : List Char) :
    (∀ s v k, tryPatterns TOKEN_PATTERNS s = some (v, k) → 0 < v.length) ∧
    (∀ t : Tokenizer, t.rest ≠ [] → t.step.rest.length < t.rest.length) ∧
    (scanLoop src0.length (Tokenizer.init src0)).rest = [] := by
  refine ⟨?_, step_rest_length, ?_⟩
  · intro s v k h
    exact List.length_pos.mpr (tryPatterns_sound s v k h).1
  · exact scanLoop_consumes_all src0.length (Tokenizer.init src0) le_rfl

/-- C8 witness: at input `"+"` the winning match is nonempty and the
step shortens the remaining input. -/
theorem C8_every_iteration_consumes_witness :
    tryPatterns TOKEN_PATTERNS ['+'] = some (['+'], some TokenType.PLUS) ∧
    0 < (['+'] : List Char).length ∧
    (Tokenizer.init ['+']).rest ≠ [] ∧
    (Tokenizer.init ['+']).step.rest.length < (Tokenizer.init ['+']).rest.length :=
  ⟨by decide, (C8_every_iteration_consumes []).1 ['+'] ['+'] (some TokenType.PLUS) (by decide),
    by decide, (C8_every_iteration_consumes []).2.1 (Tokenizer.init ['+']) (by decide)⟩

/-- C9: a second `tokenize` on the finished scanner state runs no loop
iteration (the cursor already sits at end of input) and appends exactly
one more `EOF` token at the unchanged final line/column, so the list
then ends in two `EOF` tokens. -/
theorem C9_second_tokenize_appends_eof (src : List Char) :
    ((Tokenizer.init src).tokenize.tokenize).tokens =
      tokenizeList src ++ [⟨TokenType.EOF, [], ((Tokenizer.init src).tokenize).line, ((Tokenizer.init src).tokenize).col⟩] ∧
    ((Tokenizer.init src).tokenize.tokenize).line = ((Tokenizer.init src).tokenize).line ∧
    ((Tokenizer.init src).tokenize.tokenize).col = ((Tokenizer.init src).tokenize).col ∧
    (((Tokenizer.init src).tokenize.tokenize).tokens.filter (fun tok => tok.type = TokenType.EOF)).length = 2 := by
  obtain ⟨mid, hmid, hty⟩ := tokenize_tokens (Tokenizer.init src)
  have hinit : (Tokenizer.init src).tokens = [] := rfl
  rw [hinit, List.nil_append] at hmid
  set t1 := (Tokenizer.init src).tokenize with ht1
  have hrest : t1.rest = [] := tokenize_rest _
  have hloop : scanLoop t1.rest.length t1 = t1 := by rw [hrest]; rfl
  have htok : t1.tokenize =
      { t1 with tokens := t1.tokens ++ [⟨TokenType.EOF, [], t1.line, t1.col⟩] } := by
    simp only [Tokenizer.tokenize, hloop]
  rw [htok]
  refine ⟨rfl, rfl, rfl, ?_⟩
  show ((t1.tokens ++ [(⟨TokenType.EOF, [], t1.line, t1.col⟩ : Token)]).filter
    (fun tok => tok.type = TokenType.EOF)).length = 2
  rw [hmid]
  have hmidnil : mid.filter (fun tok => tok.type = TokenType.EOF) = [] := by
    rw [List.filter_eq_nil]
    intro tok htok
    simpa using hty tok htok
  simp [List.filter_append, hmidnil]

/-! ## Monotonicity of token positions -/

theorem mem_of_getLastOpt {l : List Token} {x : Token} (h : x ∈ l.getLast?) :
    x ∈ l := by
  obtain ⟨hne, rfl⟩ := List.mem_getLast?_eq_getLast h
  exact List.getLast_mem hne

theorem pairLt_mono_col {a : Nat × Nat} {l c c' : Nat}
    (h : pairLt a (l, c)) (hc : c ≤ c') : pairLt a (l, c') := by
  rcases h with h | ⟨he, hlt⟩
  · exact Or.inl h
  · exact Or.inr ⟨he, lt_of_lt_of_le hlt hc⟩

theorem pairLt_next_line {a : Nat × Nat} {l c c' : Nat}
    (h : pairLt a (l, c)) : pairLt a (l + 1, c') := by
  rcases h with h | ⟨he, -⟩
  · exact Or.inl (Nat.lt_succ_of_lt h)
  · exact Or.inl (he ▸ Nat.lt_succ_self l)

theorem pairLt_self_col {l c n : Nat} (hn : 0 < n) : pairLt (l, c) (l, c + n) :=
  Or.inr ⟨rfl, by omega⟩

/-- Appending a token at the current counters preserves the chain and
the bound, provided the counters then advance. -/
theorem chain_append_current (toks : List Token) (tok : Token)
    (h1 : List.Chain' (fun a b => pairLt a.pos b.pos) toks)
    (h2 : ∀ x ∈ toks, pairLt x.pos tok.pos) :
    List.Chain' (fun a b => pairLt a.pos b.pos) (toks ++ [tok]) := by
  rw [List.chain'_append]
  refine ⟨h1, List.chain'_singleton tok, ?_⟩
  intro x hx y hy
  simp only [List.head?_cons, Option.mem_def, Option.some.injEq] at hy
  subst hy
  exact h2 x (mem_of_getLastOpt hx)

/-- One scan step keeps token positions a strict chain and keeps every
emitted position strictly below the current counters. -/
theorem step_chain (t : Tokenizer)
    (h1 : List.Chain' (fun a b => pairLt a.pos b.pos) t.tokens)
    (h2 : ∀ tok ∈ t.tokens, pairLt tok.pos (t.line, t.col)) :
    List.Chain' (fun a b => pairLt a.pos b.pos) t.step.tokens ∧
    ∀ tok ∈ t.step.tokens, pairLt tok.pos (t.step.line, t.step.col) := by
  cases hm : tryPatterns TOKEN_PATTERNS t.rest with
  | some vk =>
    obtain ⟨v, k⟩ := vk
    obtain ⟨hne, -⟩ := tryPatterns_sound _ _ _ hm
    have hv1 : 0 < v.length := List.length_pos.mpr hne
    by_cases hv : v = ['\n']
    · rw [step_of_newline t v k hm hv]
      exact ⟨h1, fun tok htok => pairLt_next_line (h2 tok htok)⟩
    · cases k with
      | some tk =>
        rw [step_of_emit t v tk hm hv]
        refine ⟨chain_append_current _ _ h1 (fun x hx => h2 x hx), ?_⟩
        intro tok htok
        rcases List.mem_append.mp htok with h | h
        · exact pairLt_mono_col (h2 tok h) (Nat.le_add_right _ _)
        · simp only [List.mem_singleton] at h
          subst h
          exact pairLt_self_col hv1
      | none =>
        rw [step_of_skip t v hm hv]
        exact ⟨h1, fun tok htok =>
          pairLt_mono_col (h2 tok htok) (Nat.le_add_right _ _)⟩
  | none =>
    cases hr : t.rest with
    | nil =>
      have hstep : t.step = t := by
        simp [Tokenizer.step, hr, show tryPatterns TOKEN_PATTERNS [] = none from rfl]
      rw [hstep]
      exact ⟨h1, h2⟩
    | cons c r =>
      rw [step_of_unknown t c r hr hm]
      refine ⟨chain_append_current _ _ h1 (fun x hx => h2 x hx), ?_⟩
      intro tok htok
      rcases List.mem_append.mp htok with h | h
      · exact pairLt_mono_col (h2 tok h) (Nat.le_add_right _ _)
      · simp only [List.mem_singleton] at h
        subst h
        exact pairLt_self_col Nat.one_pos

theorem scanLoop_chain :
    ∀ (fuel : Nat) (t : Tokenizer),
      List.Chain' (fun a b => pairLt a.pos b.pos) t.tokens →
      (∀ tok ∈ t.tokens, pairLt tok.pos (t.line, t.col)) →
      List.Chain' (fun a b => pairLt a.pos b.pos) (scanLoop fuel t).tokens ∧
      ∀ tok ∈ (scanLoop fuel t).tokens,
        pairLt tok.pos ((scanLoop fuel t).line, (scanLoop fuel t).col) := by
  intro fuel
  induction fuel with
  | zero => exact fun t h1 h2 => ⟨h1, h2⟩
  | succ fuel ih =>
    intro t h1 h2
    cases hr : t.rest with
    | nil => exact ⟨by simpa [scanLoop, hr] using h1, by simpa [scanLoop, hr] using h2⟩
    | cons c r =>
      obtain ⟨h1', h2'⟩ := step_chain t h1 h2
      have := ih t.step h1' h2'
      simpa [scanLoop, hr] using this

/-- C10: the final token of every scan is the `EOF` token and its text
is the empty string, whatever the input. -/
theorem C10_eof_empty_text (src : List Char) :
    ∃ tok, (tokenizeList src).getLast? = some tok ∧
      tok.type = TokenType.EOF ∧ tok.value = [] := by
  obtain ⟨mid, hmid, -⟩ := tokenize_tokens (Tokenizer.init src)
  refine ⟨⟨TokenType.EOF, [], ((Tokenizer.init src).tokenize).line,
    ((Tokenizer.init src).tokenize).col⟩, ?_, rfl, rfl⟩
  rw [tokenizeList, hmid]
  exact List.getLast?_concat _

/-- C3 (amended): provided no match of the string-literal rule in the
input contains a newline, every produced token's 1-based line and
column equal the actual line and column of its first character in the
source. -/
theorem C3_line_col_accurate (src : List Char)
    (H : stringMatchNlFree src = true) : PosAccurate src := by
  intro tok htok hval
  have hplaced := scanLoop_placed src H (Tokenizer.init src).rest.length
    (Tokenizer.init src) [] (by simp [Tokenizer.init]) (by simp [Tokenizer.init, lineAt])
    (by simp [Tokenizer.init, colAt]) (by simp [Tokenizer.init])
  rw [tokenizeList] at htok
  simp only [Tokenizer.tokenize] at htok
  rcases List.mem_append.mp htok with h | h
  · exact hplaced tok h
  · simp only [List.mem_singleton] at h
    subst h
    exact absurd rfl hval

/-- C3 witness: for the spec's own example `"x = 5\ny = 10"` the
hypothesis holds and the token for `y` is accurately placed at line 2,
column 1. -/
theorem C3_line_col_accurate_witness :
    stringMatchNlFree (String.toList "x = 5\ny = 10") = true ∧
    Placed (String.toList "x = 5\ny = 10") ⟨TokenType.IDENTIFIER, ['y'], 2, 1⟩ :=
  ⟨by decide,
    C3_line_col_accurate (String.toList "x = 5\ny = 10") (by decide)
      ⟨TokenType.IDENTIFIER, ['y'], 2, 1⟩ (by decide) (by decide)⟩

/-- C3 counterexample: a string literal containing a newline is matched
as one token while only the column counter advances, so for the source
`"a\nb"x` the token for `x` records line 1 although its character sits
on line 2 — position accuracy fails as universally stated. -/
theorem C3_counterexample : ¬ PosAccurate (String.toList "\"a\nb\"x") := by
  intro h
  have hx : (⟨TokenType.IDENTIFIER, ['x'], 1, 6⟩ : Token) ∈
      tokenizeList (String.toList "\"a\nb\"x") := by decide
  obtain ⟨i, hval, hline, -⟩ := h _ hx (by decide)
  rcases Nat.lt_or_ge i 6 with hi | hi
  · interval_cases i <;> revert hval hline <;> decide
  · have hdrop : List.drop i (String.toList "\"a\nb\"x") = [] :=
      List.drop_eq_nil_of_le (by simp; omega)
    rw [hdrop] at hval
    simp at hval

/-- C6: a double quote with no closing quote in the remaining input
defeats the string rule and every later rule, so the quote surfaces as
an `UNKNOWN` token and scanning resumes after it; in particular a quote
followed by letters yields `UNKNOWN` then an `IDENTIFIER`. -/
theorem C6_unterminated_string :
    (∀ r : List Char, ¬ '"' ∈ r →
      matchString ('"' :: r) = none ∧ tryPatterns TOKEN_PATTERNS ('"' :: r) = none) ∧
    tokenizeList (String.toList "\"abc") =
      [⟨TokenType.UNKNOWN, ['"'], 1, 1⟩,
       ⟨TokenType.IDENTIFIER, String.toList "abc", 1, 2⟩,
       ⟨TokenType.EOF, [], 1, 5⟩] := by
  constructor
  · intro r hr
    have hb : r.takeWhile (fun x => x ≠ '"') = r := by
      apply takeWhile_all
      intro a ha
      simp only [ne_eq, decide_eq_true_eq]
      intro h
      subst h
      exact hr ha
    have hms : matchString ('"' :: r) = none := by
      simp only [matchString, if_pos, hb, List.drop_length]
    refine ⟨hms, ?_⟩
    rw [tryPatterns_eq_none]
    intro p hp
    simp only [TOKEN_PATTERNS] at hp
    fin_cases hp
    all_goals first
    | rfl
    | exact hms
  · rfl

/-- C6 witness: the unterminated input `"abc` (quote then letters)
instantiates the general statement. -/
theorem C6_unterminated_string_witness :
    ¬ '"' ∈ String.toList "abc" ∧
    (matchString ('"' :: String.toList "abc") = none ∧
      tryPatterns TOKEN_PATTERNS ('"' :: String.toList "abc") = none) :=
  ⟨by decide, C6_unterminated_string.1 (String.toList "abc") (by decide)⟩

/-- C7: for every input the produced tokens appear in strictly
increasing (line, column) order under lexicographic comparison, up to
and including the final `EOF` token. -/
theorem C7_positions_strictly_increasing (src : List Char) :
    List.Chain' (fun a b => pairLt a.pos b.pos) (tokenizeList src) := by
  have hbase := scanLoop_chain (Tokenizer.init src).rest.length (Tokenizer.init src)
    (by simp [Tokenizer.init]) (by simp [Tokenizer.init])
  obtain ⟨h1, h2⟩ := hbase
  show List.Chain' (fun a b => pairLt a.pos b.pos)
    ((Tokenizer.init src).tokenize).tokens
  simp only [Tokenizer.tokenize]
  exact chain_append_current _ _ h1 (fun x hx => h2 x hx)

end CPPro
